import Mathlib

/-!
# Shallow embedding of the ernest-oracle core (src/src)

Definitions are translated from the Rust sources of the repository:
`src/src/parlay/parameter.rs`, `src/src/parlay/contract.rs`, `src/src/oracle.rs`,
`src/src/storage.rs`, `src/src/watcher.rs`, `src/src/events.rs`.

Modelling conventions:
* `u64` / `i64` / `u32` / `i32` are `Nat` / `Int` with explicit wrap-around
  (`% 2^w`) where the Rust arithmetic can overflow; Rust release-mode
  (wrapping) semantics are used for overflowing integer arithmetic.
* `f64` is modelled by `F64`: an exact rational together with the IEEE
  special values `+inf`, `-inf` and `NaN`.  Rounding of rational results and
  overflow of finite results to infinity are not modelled (every concrete
  value appearing in a theorem below is exactly representable, and all order
  and sign facts proved are preserved by IEEE rounding, which is monotone).
* database-backed functions are modelled as pure functions on an explicit
  record of table contents; a SQL transaction that aborts is an `Except`
  error value, which leaves the caller's state unchanged.
-/

namespace ErnestOracle

/-! ## Machine-integer helpers -/

/-- `x as i64` applied to a `u64` value `n` (Rust wrapping cast). -/
def i64ofU64 (n : ℕ) : ℤ :=
  if n < 2 ^ 63 then (n : ℤ) else (n : ℤ) - 2 ^ 64

/-- Wrap an integer into the `i64` range (Rust release-mode overflow). -/
def wrapI64 (x : ℤ) : ℤ :=
  (x + 2 ^ 63) % 2 ^ 64 - 2 ^ 63

/-- `x` is representable as an `i64`. -/
def IsI64 (x : ℤ) : Prop :=
  -(2 ^ 63) ≤ x ∧ x < 2 ^ 63

instance (x : ℤ) : Decidable (IsI64 x) := by
  unfold IsI64; infer_instance

theorem wrapI64_eq_of_IsI64 {x : ℤ} (h : IsI64 x) : wrapI64 x = x := by
  obtain ⟨h1, h2⟩ := h
  unfold wrapI64
  omega

theorem i64ofU64_eq_of_lt {n : ℕ} (h : n < 2 ^ 63) : i64ofU64 n = n := by
  simp only [i64ofU64, if_pos h]

/-! ## A rational model of `f64` -/

/-- Idealized `f64`: exact rationals plus the IEEE special values. -/
inductive F64 where
  | num (q : ℚ)
  | posInf
  | negInf
  | nan
  deriving DecidableEq

namespace F64

/-- IEEE `+` (totals: NaN absorbs, opposite infinities give NaN). -/
def add : F64 → F64 → F64
  | nan, _ => nan
  | _, nan => nan
  | posInf, negInf => nan
  | negInf, posInf => nan
  | posInf, _ => posInf
  | _, posInf => posInf
  | negInf, _ => negInf
  | _, negInf => negInf
  | num a, num b => num (a + b)

/-- IEEE `*` (0 times an infinity is NaN; signs propagate). -/
def mul : F64 → F64 → F64
  | nan, _ => nan
  | _, nan => nan
  | posInf, posInf => posInf
  | posInf, negInf => negInf
  | negInf, posInf => negInf
  | negInf, negInf => posInf
  | posInf, num b => if b = 0 then nan else if 0 < b then posInf else negInf
  | num a, posInf => if a = 0 then nan else if 0 < a then posInf else negInf
  | negInf, num b => if b = 0 then nan else if 0 < b then negInf else posInf
  | num a, negInf => if a = 0 then nan else if 0 < a then negInf else posInf
  | num a, num b => num (a * b)

/-- IEEE `/` (finite by zero gives a signed infinity, 0/0 gives NaN). -/
def div : F64 → F64 → F64
  | nan, _ => nan
  | _, nan => nan
  | posInf, posInf => nan
  | posInf, negInf => nan
  | negInf, posInf => nan
  | negInf, negInf => nan
  | posInf, num b => if 0 ≤ b then posInf else negInf
  | negInf, num b => if 0 ≤ b then negInf else posInf
  | num _, posInf => num 0
  | num _, negInf => num 0
  | num a, num b =>
      if b = 0 then
        if a = 0 then nan else if 0 < a then posInf else negInf
      else num (a / b)

/-- IEEE `<=` as a boolean (false whenever either side is NaN). -/
def le : F64 → F64 → Bool
  | nan, _ => false
  | _, nan => false
  | negInf, _ => true
  | _, posInf => true
  | posInf, _ => false
  | _, negInf => false
  | num a, num b => decide (a ≤ b)

/-- Rust `f64::min`: ignores a NaN argument, otherwise the smaller value. -/
def fmin : F64 → F64 → F64
  | nan, y => y
  | x, nan => x
  | x, y => if le x y then x else y

/-- Rust `f64::max`: ignores a NaN argument, otherwise the larger value. -/
def fmax : F64 → F64 → F64
  | nan, y => y
  | x, nan => x
  | x, y => if le x y then y else x

/-- `Iterator::sum::<f64>()`: left fold of `+` starting from `0.0`. -/
def fsum (l : List F64) : F64 :=
  l.foldl add (num 0)

/-- `Iterator::product::<f64>()`: left fold of `*` starting from `1.0`. -/
def fprod (l : List F64) : F64 :=
  l.foldl mul (num 1)

/-- Rust `expr as u64` on an `f64`: saturating cast, truncation toward zero,
NaN to `0`, negatives to `0`, values above `u64::MAX` to `u64::MAX`. -/
def toU64 : F64 → ℕ
  | nan => 0
  | negInf => 0
  | posInf => 2 ^ 64 - 1
  | num q => if q < 0 then 0 else min q.floor.toNat (2 ^ 64 - 1)

/-- Rust `f64::powf`, modelled only where the result stays rational:
`powf(x, 0) = 1` and `powf(1, y) = 1` (IEEE, for every `x`, `y` including
NaN) and `powf(x, 1) = x`.  All other cases produce irrational values that
this rational model cannot represent and are mapped to NaN; the sole caller
is the `geometricMean` branch of `combine_scores`, which no claim touches. -/
def powf : F64 → F64 → F64
  | _, num 0 => num 1
  | num 1, _ => num 1
  | x, num 1 => x
  | _, _ => nan

end F64

/-! ## `src/src/events.rs` -/

/-- `EventType` from `src/src/events.rs`. -/
inductive EventType where
  | hashrate
  | feeRate
  | blockReward
  | difficultyAdjustment
  deriving DecidableEq

/-! ## `src/src/parlay/parameter.rs` -/

/-- `TransformationFunction` from `src/src/parlay/parameter.rs`. -/
inductive TransformationFunction where
  | linear
  | quadratic
  | sqrt
  | exponential
  | logarithmic
  deriving DecidableEq

/-- `ParlayParameter` from `src/src/parlay/parameter.rs`.  `threshold` and
`range` are `u64` (`ℕ`, bounded below `2^64` by hypothesis where it
matters); `weight` is an `f64`. -/
structure ParlayParameter where
  data_type : EventType
  threshold : ℕ
  range : ℕ
  is_above_threshold : Bool
  transformation : TransformationFunction
  weight : F64
  deriving DecidableEq

/-- `ParlayParameter::normalize_parameter` (src/src/parlay/parameter.rs,
lines 29-55).  `value` is an `i64`; `self.threshold as i64` is a wrapping
cast, and the `i64` subtractions computing `distance` wrap on overflow
(Rust release semantics).  The two divisions are unguarded: a zero `range`
yields a signed infinity, and the final `.min(1.0)` is Rust `f64::min`. -/
def ParlayParameter.normalize_parameter (p : ParlayParameter) (value : ℤ) : F64 :=
  let t : ℤ := i64ofU64 p.threshold
  if p.is_above_threshold then
    if value ≤ t then
      F64.num 0
    else
      let distance : ℤ := wrapI64 (value - t)
      F64.fmin (F64.div (F64.num distance) (F64.num p.range)) (F64.num 1)
  else
    if t ≤ value then
      F64.num 0
    else
      let distance : ℤ := wrapI64 (t - value)
      F64.fmin (F64.div (F64.num distance) (F64.num p.range)) (F64.num 1)

/-! ## `src/src/parlay/contract.rs` -/

/-- `CombinationMethod` from `src/src/parlay/contract.rs`. -/
inductive CombinationMethod where
  | multiply
  | weightedAverage
  | geometricMean
  | min
  | max
  deriving DecidableEq

/-- `ParlayContract` from `src/src/parlay/contract.rs`. -/
structure ParlayContract where
  id : String
  parameters : List ParlayParameter
  combination_method : CombinationMethod
  max_normalized_value : ℕ
  deriving DecidableEq

/-- `combine_scores` (src/src/parlay/contract.rs, lines 126-150).
The `weightedAverage` branch sums `e * w` over `events.iter().zip(weights)`
and divides by `events.len() as f64` (the number of events). -/
def combine_scores (events : List F64) (weights : List F64)
    (combination_method : CombinationMethod) : F64 :=
  match combination_method with
  | .multiply => F64.fprod events
  | .weightedAverage =>
      let sum := F64.fsum ((events.zip weights).map fun p => F64.mul p.1 p.2)
      F64.div sum (F64.num events.length)
  | .geometricMean =>
      let product := F64.fprod events
      F64.powf product (F64.div (F64.num 1) (F64.num events.length))
  | .min =>
      if events.isEmpty then F64.num 0
      else events.foldl F64.fmin F64.posInf
  | .max => events.foldl F64.fmax (F64.num 0)

/-- `convert_to_attestable_value` (src/src/parlay/contract.rs, lines 152-154):
`(combined_score * max_normalized_value as f64) as u64`. -/
def convert_to_attestable_value (combined_score : F64)
    (max_normalized_value : ℕ) : ℕ :=
  (F64.mul combined_score (F64.num max_normalized_value)).toU64

/-! ## `src/src/oracle.rs` -/

/-- `calculate_oracle_parameters` (src/src/oracle.rs, lines 281-294).
`(max_normalized_value as f64).log2().ceil() as u16` is modelled as the
exact ceiling base-2 logarithm `Nat.clog 2`; `(1u64 << nb_digits) - 1`
keeps Rust release semantics, where the shift amount is masked modulo 64. -/
def calculate_oracle_parameters (max_normalized_value : ℕ) : ℕ × ℕ :=
  let nb_digits : ℕ :=
    if max_normalized_value = 0 then 1
    else Nat.clog 2 max_normalized_value
  let oracle_max_value : ℕ := 2 ^ (nb_digits % 64) - 1
  (nb_digits, oracle_max_value)

/-! ## Spec-side normalization formula (for the refinement claims) -/

/-- The normalization formula exactly as the spec words it (§4.E step 1 /
claim C6): `0` at or on the wrong side of the threshold, otherwise
`min(distance / range, 1)` computed over exact rationals with no integer
wrap-around.  This is the comparison point for `normalize_parameter`. -/
def normalizeSpec (is_above : Bool) (threshold range : ℕ) (value : ℤ) : ℚ :=
  if is_above then
    if value ≤ (threshold : ℤ) then 0
    else min (((value : ℚ) - (threshold : ℚ)) / (range : ℚ)) 1
  else
    if (threshold : ℤ) ≤ value then 0
    else min (((threshold : ℚ) - (value : ℚ)) / (range : ℚ)) 1

/-! ## `src/src/storage.rs` -/

/-- Rust `x as u32` on an `i32` value (wrapping cast). -/
def u32ofI32 (x : ℤ) : ℕ :=
  (x % 2 ^ 32).toNat

/-- A row of the `event_nonces` table.  `id` and `index` are `i32` columns;
`nonce` and `signature` stand for the stored byte strings. -/
structure EventNonceRow where
  id : ℤ
  event_id : String
  index : ℤ
  nonce : ℕ
  outcome : Option String
  signature : Option ℕ
  deriving DecidableEq

/-- The descriptor inside a stored `OracleEvent` (only the parts the
embedded functions inspect). -/
inductive EventDescriptorM where
  | digitDecomposition (unit : String)
  | enumEvent
  deriving DecidableEq

/-- A stored `OracleEvent` (deserialized form; serialization is out of
scope, so the `oracle_event` column is modelled structurally). -/
structure OracleEventM where
  event_maturity_epoch : ℕ
  descriptor : EventDescriptorM
  deriving DecidableEq

/-- A row of the `events` table. -/
structure EventRow where
  event_id : String
  announcement_signature : ℕ
  oracle_event : OracleEventM
  name : String
  is_enum : Bool
  created_at : ℕ
  deriving DecidableEq

/-- A row of the `event_types` table. -/
structure EventTypeRow where
  oracle_event_id : String
  event_type : String
  deriving DecidableEq

/-- The tables touched by the embedded storage operations. -/
structure Db where
  events : List EventRow
  event_nonces : List EventNonceRow
  event_types : List EventTypeRow
  deriving DecidableEq

/-- `kormir::error::Error` (only the variant this code produces). -/
inductive KormirError where
  | storageFailure
  deriving DecidableEq

/-- `kormir::storage::OracleEventData` as assembled by `save_signatures`. -/
structure OracleEventData where
  event_id : String
  announcement_signature : ℕ
  oracle_event : OracleEventM
  indexes : List ℕ
  signatures : List (String × ℕ)
  deriving DecidableEq

/-- The `event_nonces` rows of one event, in `ORDER BY index` order
(`SELECT id, index FROM event_nonces WHERE event_id = $1 ORDER BY index`). -/
def nonce_rows_of_event (db : Db) (event_id : String) : List EventNonceRow :=
  List.insertionSort (fun a b => a.index ≤ b.index)
    (db.event_nonces.filter (fun n => n.event_id == event_id))

/-- One `UPDATE event_nonces SET outcome = $1, signature = $2 WHERE id = $3`. -/
def update_nonce (rows : List EventNonceRow) (id : ℤ) (outcome : String)
    (sig : ℕ) : List EventNonceRow :=
  rows.map fun n =>
    if n.id == id then { n with outcome := some outcome, signature := some sig }
    else n

/-- `PostgresStorage::save_signatures` (src/src/storage.rs, lines 206-296).
A single transaction: load the event (absent event aborts), load its nonces
ordered by index, abort when the nonce count differs from the signature
count, then update every nonce row's `(outcome, signature)` pair in order.
No check of previously present signatures is made.  An `Except.error`
models an aborted transaction (caller's state unchanged). -/
def save_signatures (db : Db) (event_id : String)
    (signatures : List (String × ℕ)) : Except KormirError (Db × OracleEventData) :=
  match db.events.find? (fun e => e.event_id == event_id) with
  | none => .error .storageFailure
  | some ev =>
      let nonces := (nonce_rows_of_event db event_id).map fun n => (n.id, n.index)
      if nonces.length ≠ signatures.length then .error .storageFailure
      else
        let newNonces :=
          (nonces.zip signatures).foldl
            (fun rows p => update_nonce rows p.1.1 p.2.1 p.2.2)
            db.event_nonces
        .ok ({ db with event_nonces := newNonces },
          { event_id := ev.event_id
            announcement_signature := ev.announcement_signature
            oracle_event := ev.oracle_event
            indexes := nonces.map fun p => u32ofI32 p.2
            signatures := signatures })

/-- `PostgresStorage::new` (src/src/storage.rs, lines 22-42), reduced to the
initial counter value: `SELECT COALESCE(MAX(index), 0) FROM event_nonces`
followed by `current_index as u32 + 1` (wrapping `i32 → u32` cast and
wrapping `u32` increment).  `none` models an unreadable store, on which the
`?` propagates the error. -/
def postgres_storage_new (read : Option (List EventNonceRow)) :
    Except KormirError ℕ :=
  match read with
  | none => .error .storageFailure
  | some rows =>
      let current_index : ℤ := ((rows.map fun n => n.index).max?).getD 0
      .ok ((u32ofI32 current_index + 1) % 2 ^ 32)

/-- `PostgresStorage::get_next_nonce_indexes` (src/src/storage.rs, lines
127-135): an atomic `fetch_add` of `num` on the `u32` counter, then the
block `[previous, previous + 1, …]` built with wrapping `u32` increments. -/
def get_next_nonce_indexes (num : ℕ) (counter : ℕ) : List ℕ × ℕ :=
  ((List.range num).map fun k => (counter + k) % 2 ^ 32,
   (counter + num) % 2 ^ 32)

/-- A sequence of `get_next_nonce_indexes` calls threaded through the
counter: the list of blocks each call returns. -/
def alloc_trace (counter : ℕ) : List ℕ → List (List ℕ)
  | [] => []
  | n :: ns =>
      (get_next_nonce_indexes n counter).1 ::
        alloc_trace (get_next_nonce_indexes n counter).2 ns

/-- Spec-side shape of the allocations (claim C4): the `j`-th call returns
the consecutive block starting right after all earlier blocks, with no
wrap-around.  Comparison point for `alloc_trace`. -/
def spec_blocks (counter : ℕ) : List ℕ → List (List ℕ)
  | [] => []
  | n :: ns => ((List.range n).map fun k => counter + k) :: spec_blocks (counter + n) ns

/-! ## `ErnestOracle::get_matured_unsigned_event_ids_by_type`
(src/src/oracle.rs, lines 187-229) -/

/-- The SQL part of the query: `events` INNER JOINed with `event_types` on
the event id, restricted to the requested tag, keeping only events with no
nonce whose `signature IS NOT NULL`, ordered by `created_at` ascending. -/
def matured_unsigned_rows (db : Db) (event_type : String) : List EventRow :=
  let joined :=
    db.events.flatMap fun e =>
      (db.event_types.filter fun t =>
        t.oracle_event_id == e.event_id && t.event_type == event_type).map
        fun _ => e
  let unsigned :=
    joined.filter fun e =>
      !(db.event_nonces.any fun n => n.event_id == e.event_id && n.signature.isSome)
  List.insertionSort (fun a b => a.created_at ≤ b.created_at) unsigned

/-- The full function: map the rows to `(event_id, oracle_event)` pairs and
then filter `event_maturity_epoch ≤ now` on the Rust side. -/
def get_matured_unsigned_event_ids_by_type (db : Db) (event_type : String)
    (now : ℕ) : List (String × OracleEventM) :=
  ((matured_unsigned_rows db event_type).map fun e => (e.event_id, e.oracle_event)).filter
    fun r => r.2.event_maturity_epoch ≤ now

/-! ## `src/src/watcher.rs` -/

/-- `sign_parlay_events` (src/src/watcher.rs, lines 26-43), as a function of
the matured event list and the fallible `attest_parlay_contract` call:
returns the ids attested in order.  An error is logged and the `for` loop
`continue`s with the next event. -/
def sign_parlay_events (events : List (String × OracleEventM))
    (attest : String → Except String Unit) : List String :=
  match events with
  | [] => []
  | (event_id, _) :: rest =>
      match attest event_id with
      | .error _ => sign_parlay_events rest attest
      | .ok _ => event_id :: sign_parlay_events rest attest

/-- `sign_single_events` (src/src/watcher.rs, lines 45-108), as a function
of the matured event list and its fallible collaborators (`outcome_from_str`
sampling, `sign_numeric_event`, and the two audit-table writes): returns the
ids actually signed, in order.  Control flow is kept exactly: an enum
descriptor `continue`s, but every other arm of the loop body ends in a Rust
`return log::…!(…)` expression, which exits the whole function — after a
failed sample, after a failed sign, and even after a fully successful
event. -/
def sign_single_events (events : List (String × OracleEventM))
    (outcome_from_str : String → Except String ℤ)
    (sign_numeric_event : String → ℤ → Except String Unit)
    (save_attestation_outcome : String → Except String Unit)
    (save_attestation_data_outcome : String → Except String Unit) : List String :=
  match events with
  | [] => []
  | (event_id, oracle_event) :: rest =>
      match oracle_event.descriptor with
      | .enumEvent =>
          sign_single_events rest outcome_from_str sign_numeric_event
            save_attestation_outcome save_attestation_data_outcome
      | .digitDecomposition unit =>
          match outcome_from_str unit with
          | .error _ => []
          | .ok outcome =>
              match sign_numeric_event event_id outcome with
              | .error _ => []
              | .ok _ =>
                  match save_attestation_outcome event_id with
                  | .error _ => [event_id]
                  | .ok _ =>
                      match save_attestation_data_outcome event_id with
                      | .error _ => [event_id]
                      | .ok _ => [event_id]

/-! ## Fixtures for the concrete counterexamples -/

/-- Counterexample parameter for C6: a `u64` threshold of `2^63`, whose
`as i64` cast is negative. -/
def cexParamC6 : ParlayParameter :=
  ⟨.hashrate, 2 ^ 63, 1, true, .linear, F64.num 1⟩

/-- Counterexample parameter for C7 (same shape as C6's, its own fixture). -/
def cexParamC7 : ParlayParameter :=
  ⟨.hashrate, 2 ^ 63, 1, true, .linear, F64.num 1⟩

/-- Counterexample parameter for C10: threshold `i64::MAX`, below-threshold
direction, so `threshold - value` overflows `i64` for negative values. -/
def cexParamC10 : ParlayParameter :=
  ⟨.hashrate, 2 ^ 63 - 1, 1, false, .linear, F64.num 1⟩

/-- Oracle event used by the C1 fixture. -/
def oeC1 : OracleEventM := ⟨0, .digitDecomposition "hashrate"⟩

/-- C1 fixture: one event whose single nonce already holds a signature. -/
def dbC1 : Db :=
  ⟨[⟨"e", 0, oeC1, "e", false, 0⟩],
   [⟨0, "e", 0, 5, some "1", some 7⟩],
   []⟩

/-- The C1 store after the second `save_signatures` call: the nonce's
outcome and signature have been overwritten. -/
def dbC1' : Db :=
  ⟨[⟨"e", 0, oeC1, "e", false, 0⟩],
   [⟨0, "e", 0, 5, some "0", some 9⟩],
   []⟩

/-- The event data the second `save_signatures` call returns. -/
def dataC1 : OracleEventData := ⟨"e", 0, oeC1, [0], [("0", 9)]⟩

/-- A digit-decomposition oracle event with the given unit (C8 fixture). -/
def oeDigit (unit : String) : OracleEventM := ⟨0, .digitDecomposition unit⟩

/-- C8 fixture: two matured single events; sampling fails for the first. -/
def singleEventsC8 : List (String × OracleEventM) :=
  [("e1", oeDigit "u1"), ("e2", oeDigit "u2")]

/-- C8 fixture: two matured single events whose sampling both succeed. -/
def singleEventsC8ok : List (String × OracleEventM) :=
  [("e3", oeDigit "u2"), ("e4", oeDigit "u2")]

/-- C8 fixture: the stats source fails for unit `"u1"`, succeeds for `"u2"`. -/
def outcomesC8 : String → Except String ℤ :=
  fun unit => if unit == "u2" then .ok 42 else .error "stats source failed"

/-- C8 fixture: signing always succeeds. -/
def signOkC8 : String → ℤ → Except String Unit := fun _ _ => .ok ()

/-- C8 fixture: the audit-table writes always succeed. -/
def saveOkC8 : String → Except String Unit := fun _ => .ok ()

/-- C8 fixture: two matured parlay events; attestation fails for the first. -/
def parlayEventsC8 : List (String × OracleEventM) :=
  [("p1", oeDigit "parlay"), ("p2", oeDigit "parlay")]

/-- C8 fixture: `attest_parlay_contract` fails on `"p1"`, succeeds on `"p2"`. -/
def attestC8 : String → Except String Unit :=
  fun event_id => if event_id == "p2" then .ok () else .error "no outcome"

/-! # Theorems

## Helper lemmas about the `f64` model -/

theorem F64.div_num_of_ne {a b : ℚ} (hb : b ≠ 0) :
    F64.div (.num a) (.num b) = .num (a / b) := by
  simp [F64.div, hb]

theorem F64.div_num_zero_pos {a : ℚ} (ha : 0 < a) :
    F64.div (.num a) (.num 0) = .posInf := by
  simp [F64.div, ha.ne', ha]

theorem F64.div_num_zero_neg {a : ℚ} (ha : a < 0) :
    F64.div (.num a) (.num 0) = .negInf := by
  simp [F64.div, ha.ne, not_lt.mpr ha.le]

theorem F64.fmin_num_num (a b : ℚ) :
    F64.fmin (.num a) (.num b) = .num (min a b) := by
  simp only [F64.fmin, F64.le]
  split
  · next h => rw [min_eq_left (by simpa using h)]
  · next h => rw [min_eq_right (le_of_not_le (by simpa using h))]

theorem F64.fmin_posInf_num (b : ℚ) :
    F64.fmin .posInf (.num b) = .num b := by
  simp [F64.fmin, F64.le]

theorem F64.fmin_negInf_num (b : ℚ) :
    F64.fmin .negInf (.num b) = .negInf := by
  simp [F64.fmin, F64.le]

theorem F64.le_num_num {a b : ℚ} (h : a ≤ b) :
    F64.le (.num a) (.num b) = true := by
  simpa [F64.le] using h

/-! ## Helper lemmas about the integer casts -/

theorem isI64_i64ofU64 {n : ℕ} (h : n < 2 ^ 64) : IsI64 (i64ofU64 n) := by
  unfold i64ofU64 IsI64
  split <;> omega

theorem i64ofU64_nonneg {n : ℕ} (h : n < 2 ^ 63) : 0 ≤ i64ofU64 n := by
  rw [i64ofU64_eq_of_lt h]
  positivity

theorem wrapI64_ne_zero {x : ℤ} (h1 : 1 ≤ x) (h2 : x < 2 ^ 64) :
    wrapI64 x ≠ 0 := by
  unfold wrapI64
  omega

/-! ## Helper lemmas about `normalize_parameter` -/

/-- The common core `min(distance / range, 1.0)` is a finite rational in
`[0, 1]` whenever the (already wrapped) distance is positive. -/
theorem norm_core_mem (d : ℤ) (hd : 0 < d) (r : ℕ) :
    ∃ q : ℚ, F64.fmin (F64.div (.num (d : ℚ)) (.num (r : ℚ))) (.num 1) = .num q ∧
      0 ≤ q ∧ q ≤ 1 := by
  rcases Nat.eq_zero_or_pos r with hr | hr
  · subst hr
    refine ⟨1, ?_, by norm_num⟩
    rw [show ((0 : ℕ) : ℚ) = 0 by norm_num,
      F64.div_num_zero_pos (by exact_mod_cast hd), F64.fmin_posInf_num]
  · have hrq : (0 : ℚ) < (r : ℚ) := by exact_mod_cast hr
    refine ⟨min ((d : ℚ) / (r : ℚ)) 1, ?_, ?_, min_le_right _ _⟩
    · rw [F64.div_num_of_ne hrq.ne', F64.fmin_num_num]
    · have : (0 : ℚ) ≤ (d : ℚ) / (r : ℚ) :=
        div_nonneg (by exact_mod_cast hd.le) hrq.le
      exact le_min this (by norm_num)

/-- The common core is monotone in the (already wrapped) distance, as long
as the smaller distance is positive. -/
theorem norm_core_mono (d₁ d₂ : ℤ) (hd₁ : 0 < d₁) (hd : d₁ ≤ d₂) (r : ℕ) :
    F64.le (F64.fmin (F64.div (.num (d₁ : ℚ)) (.num (r : ℚ))) (.num 1))
      (F64.fmin (F64.div (.num (d₂ : ℚ)) (.num (r : ℚ))) (.num 1)) = true := by
  rcases Nat.eq_zero_or_pos r with hr | hr
  · subst hr
    rw [show ((0 : ℕ) : ℚ) = 0 by norm_num,
      F64.div_num_zero_pos (by exact_mod_cast hd₁),
      F64.div_num_zero_pos (by exact_mod_cast (hd₁.trans_le hd)),
      F64.fmin_posInf_num]
    exact F64.le_num_num le_rfl
  · have hrq : (0 : ℚ) < (r : ℚ) := by exact_mod_cast hr
    rw [F64.div_num_of_ne hrq.ne', F64.div_num_of_ne hrq.ne',
      F64.fmin_num_num, F64.fmin_num_num]
    refine F64.le_num_num (min_le_min ?_ le_rfl)
    exact (div_le_div_iff_of_pos_right hrq).mpr (by exact_mod_cast hd)

/-- The common core is nonnegative (at positive distance): `num 0` is below it. -/
theorem norm_core_nonneg (d : ℤ) (hd : 0 < d) (r : ℕ) :
    F64.le (.num 0) (F64.fmin (F64.div (.num (d : ℚ)) (.num (r : ℚ))) (.num 1)) = true := by
  obtain ⟨q, hq, hq0, _⟩ := norm_core_mem d hd r
  rw [hq]
  exact F64.le_num_num hq0

/-- `normalize_parameter`, above-threshold direction, at or below the
threshold: the `0.0` branch. -/
theorem normalize_above_le (p : ParlayParameter) (hpa : p.is_above_threshold = true)
    {v : ℤ} (h : v ≤ i64ofU64 p.threshold) :
    p.normalize_parameter v = F64.num 0 := by
  unfold ParlayParameter.normalize_parameter
  rw [hpa]
  simp [h]

/-- `normalize_parameter`, above-threshold direction, strictly above the
threshold: the wrapped-distance branch. -/
theorem normalize_above_gt (p : ParlayParameter) (hpa : p.is_above_threshold = true)
    {v : ℤ} (h : i64ofU64 p.threshold < v) :
    p.normalize_parameter v =
      F64.fmin (F64.div (.num ((wrapI64 (v - i64ofU64 p.threshold) : ℤ) : ℚ))
        (.num (p.range : ℚ))) (.num 1) := by
  unfold ParlayParameter.normalize_parameter
  rw [hpa]
  simp [not_le.mpr h]

/-- `normalize_parameter`, below-threshold direction, at or above the
threshold: the `0.0` branch. -/
theorem normalize_below_ge (p : ParlayParameter) (hpa : p.is_above_threshold = false)
    {v : ℤ} (h : i64ofU64 p.threshold ≤ v) :
    p.normalize_parameter v = F64.num 0 := by
  unfold ParlayParameter.normalize_parameter
  rw [hpa]
  simp [h]

/-- `normalize_parameter`, below-threshold direction, strictly below the
threshold: the wrapped-distance branch. -/
theorem normalize_below_lt (p : ParlayParameter) (hpa : p.is_above_threshold = false)
    {v : ℤ} (h : v < i64ofU64 p.threshold) :
    p.normalize_parameter v =
      F64.fmin (F64.div (.num ((wrapI64 (i64ofU64 p.threshold - v) : ℤ) : ℚ))
        (.num (p.range : ℚ))) (.num 1) := by
  unfold ParlayParameter.normalize_parameter
  rw [hpa]
  simp [not_le.mpr h]

/-- The common core with a zero range: `+∞` capped by `min` at exactly `1`. -/
theorem norm_core_zero_range (d : ℤ) (hd : 0 < d) :
    F64.fmin (F64.div (.num (d : ℚ)) (.num ((0 : ℕ) : ℚ))) (.num 1) = .num 1 := by
  rw [show (((0 : ℕ) : ℚ)) = 0 by norm_num,
    F64.div_num_zero_pos (by exact_mod_cast hd), F64.fmin_posInf_num]

/-- The common core is never NaN, whatever the sign of the wrapped distance,
as long as it is nonzero. -/
theorem norm_core_ne_nan (d : ℤ) (hd : d ≠ 0) (r : ℕ) :
    F64.fmin (F64.div (.num (d : ℚ)) (.num (r : ℚ))) (.num 1) ≠ F64.nan := by
  rcases Nat.eq_zero_or_pos r with hr | hr
  · subst hr
    rcases hd.lt_or_lt with hneg | hpos
    · rw [show (((0 : ℕ) : ℚ)) = 0 by norm_num,
        F64.div_num_zero_neg (by exact_mod_cast hneg), F64.fmin_negInf_num]
      simp
    · rw [norm_core_zero_range d hpos]
      simp
  · have hrq : ((r : ℚ)) ≠ 0 := by
      have : (0 : ℚ) < (r : ℚ) := by exact_mod_cast hr
      exact this.ne'
    rw [F64.div_num_of_ne hrq, F64.fmin_num_num]
    simp

/-! ## Claims C6, C7, C10: `normalize_parameter` -/

/-- C6 (amended): for every parameter whose `u64` threshold fits in `i64`
and whose range is positive, and every `i64` sample for which the `i64`
distance computation does not overflow (automatic in the above-threshold
direction; `threshold - value < 2^63` in the below-threshold direction),
`normalize_parameter` computes exactly the spec formula: `0` at or on the
wrong side of the threshold — in particular at `value = threshold` in both
directions — and `min(distance / range, 1)` strictly past it. -/
theorem claim_C6 (p : ParlayParameter) (v : ℤ)
    (hv : IsI64 v) (ht : p.threshold < 2 ^ 63) (hr : 0 < p.range)
    (hwrap : p.is_above_threshold = false → (p.threshold : ℤ) - v < 2 ^ 63) :
    p.normalize_parameter v =
      F64.num (normalizeSpec p.is_above_threshold p.threshold p.range v) := by
  obtain ⟨hv1, hv2⟩ := hv
  have hteq : i64ofU64 p.threshold = (p.threshold : ℤ) := i64ofU64_eq_of_lt ht
  have htnn : (0 : ℤ) ≤ (p.threshold : ℤ) := Int.natCast_nonneg _
  have hrq : ((p.range : ℚ)) ≠ 0 := by
    have : (0 : ℚ) < (p.range : ℚ) := by exact_mod_cast hr
    exact this.ne'
  cases hab : p.is_above_threshold with
  | true =>
    by_cases hvt : v ≤ (p.threshold : ℤ)
    · rw [normalize_above_le p hab (by rw [hteq]; exact hvt)]
      simp [normalizeSpec, hvt]
    · push_neg at hvt
      rw [normalize_above_gt p hab (by rw [hteq]; exact hvt), hteq,
        wrapI64_eq_of_IsI64 ⟨by omega, by omega⟩,
        F64.div_num_of_ne hrq, F64.fmin_num_num]
      simp only [normalizeSpec, if_true, if_neg (not_le.mpr hvt)]
      congr 1
      push_cast
      ring
  | false =>
    have hwrap' := hwrap hab
    by_cases hvt : (p.threshold : ℤ) ≤ v
    · rw [normalize_below_ge p hab (by rw [hteq]; exact hvt)]
      simp [normalizeSpec, hvt]
    · push_neg at hvt
      rw [normalize_below_lt p hab (by rw [hteq]; exact hvt), hteq,
        wrapI64_eq_of_IsI64 ⟨by omega, by omega⟩,
        F64.div_num_of_ne hrq, F64.fmin_num_num]
      simp only [normalizeSpec, if_false, if_neg (not_le.mpr hvt)]
      congr 1
      push_cast
      ring

/-- C6 (counterexample): with the `u64` threshold `2^63`, whose `as i64`
cast is negative, a sample of `0` lies at or below the threshold, yet
`normalize_parameter` returns `-2^63` instead of the `0` the claim
requires. -/
theorem claim_C6_counterexample :
    cexParamC6.is_above_threshold = true ∧
    (0 : ℤ) ≤ (cexParamC6.threshold : ℤ) ∧
    cexParamC6.normalize_parameter 0 = F64.num (-(2 ^ 63)) ∧
    F64.num (-(2 ^ 63) : ℚ) ≠ F64.num 0 := by
  refine ⟨rfl, by norm_num [cexParamC6], ?_, by norm_num⟩
  norm_num [cexParamC6, ParlayParameter.normalize_parameter, i64ofU64, wrapI64,
    F64.div, F64.fmin, F64.le]

/-- C6 (witness): the amended claim at a concrete in-range input. -/
theorem claim_C6_witness :
    (⟨.hashrate, 5000, 100000, true, .linear, F64.num 1⟩ :
        ParlayParameter).normalize_parameter 10000 = F64.num (1 / 20) := by
  have h := claim_C6 ⟨.hashrate, 5000, 100000, true, .linear, F64.num 1⟩ 10000
    (by decide) (by norm_num) (by norm_num) (by intro h; simp at h)
  rw [h]
  norm_num [normalizeSpec]

/-- C7 (amended): `normalize_parameter` is monotone in the sample —
nondecreasing in the above-threshold direction, nonincreasing in the
below-threshold direction — for every parameter whose `u64` threshold fits
in `i64`, over all `i64` samples for which the `i64` distance computation
does not overflow (automatic in the above-threshold direction;
`threshold - v₁ < 2^63` for the smaller sample in the below-threshold
direction). -/
theorem claim_C7 (p : ParlayParameter) (v₁ v₂ : ℤ)
    (h1 : IsI64 v₁) (h2 : IsI64 v₂) (ht : p.threshold < 2 ^ 63)
    (hwrap : p.is_above_threshold = false → (p.threshold : ℤ) - v₁ < 2 ^ 63)
    (hle : v₁ ≤ v₂) :
    (p.is_above_threshold = true →
      F64.le (p.normalize_parameter v₁) (p.normalize_parameter v₂) = true) ∧
    (p.is_above_threshold = false →
      F64.le (p.normalize_parameter v₂) (p.normalize_parameter v₁) = true) := by
  obtain ⟨h11, h12⟩ := h1
  obtain ⟨h21, h22⟩ := h2
  have hteq : i64ofU64 p.threshold = (p.threshold : ℤ) := i64ofU64_eq_of_lt ht
  have htnn : (0 : ℤ) ≤ (p.threshold : ℤ) := Int.natCast_nonneg _
  constructor
  · intro hab
    by_cases hb : v₂ ≤ (p.threshold : ℤ)
    · rw [normalize_above_le p hab (by rw [hteq]; exact hle.trans hb),
        normalize_above_le p hab (by rw [hteq]; exact hb)]
      exact F64.le_num_num le_rfl
    · push_neg at hb
      by_cases ha : v₁ ≤ (p.threshold : ℤ)
      · rw [normalize_above_le p hab (by rw [hteq]; exact ha),
          normalize_above_gt p hab (by rw [hteq]; exact hb), hteq,
          wrapI64_eq_of_IsI64 ⟨by omega, by omega⟩]
        exact norm_core_nonneg _ (by omega) _
      · push_neg at ha
        rw [normalize_above_gt p hab (by rw [hteq]; exact ha),
          normalize_above_gt p hab (by rw [hteq]; exact hb), hteq,
          wrapI64_eq_of_IsI64 ⟨by omega, by omega⟩,
          wrapI64_eq_of_IsI64 ⟨by omega, by omega⟩]
        exact norm_core_mono _ _ (by omega) (by omega) _
  · intro hab
    have hwrap' := hwrap hab
    by_cases ha : (p.threshold : ℤ) ≤ v₁
    · rw [normalize_below_ge p hab (by rw [hteq]; exact ha.trans hle),
        normalize_below_ge p hab (by rw [hteq]; exact ha)]
      exact F64.le_num_num le_rfl
    · push_neg at ha
      by_cases hb : (p.threshold : ℤ) ≤ v₂
      · rw [normalize_below_ge p hab (by rw [hteq]; exact hb),
          normalize_below_lt p hab (by rw [hteq]; exact ha), hteq,
          wrapI64_eq_of_IsI64 ⟨by omega, by omega⟩]
        exact norm_core_nonneg _ (by omega) _
      · push_neg at hb
        rw [normalize_below_lt p hab (by rw [hteq]; exact hb),
          normalize_below_lt p hab (by rw [hteq]; exact ha), hteq,
          wrapI64_eq_of_IsI64 ⟨by omega, by omega⟩,
          wrapI64_eq_of_IsI64 ⟨by omega, by omega⟩]
        exact norm_core_mono _ _ (by omega) (by omega) _

/-- C7 (counterexample): with the `u64` threshold `2^63` the wrapped
distance jumps from `2^63 - 1` down to `-2^63` between the samples `-1`
and `0`, so monotonicity fails: `normalize(-1) = 1 > normalize(0)`. -/
theorem claim_C7_counterexample :
    cexParamC7.is_above_threshold = true ∧
    ((-1 : ℤ) ≤ 0) ∧
    F64.le (cexParamC7.normalize_parameter (-1)) (cexParamC7.normalize_parameter 0)
      = false := by
  refine ⟨rfl, by norm_num, ?_⟩
  norm_num [cexParamC7, ParlayParameter.normalize_parameter, i64ofU64, wrapI64,
    F64.div, F64.fmin, F64.le]

/-- C7 (witness): the amended claim at concrete in-range inputs. -/
theorem claim_C7_witness :
    F64.le
      ((⟨.hashrate, 5000, 100000, true, .linear, F64.num 1⟩ :
          ParlayParameter).normalize_parameter 6000)
      ((⟨.hashrate, 5000, 100000, true, .linear, F64.num 1⟩ :
          ParlayParameter).normalize_parameter 7000) = true :=
  (claim_C7 ⟨.hashrate, 5000, 100000, true, .linear, F64.num 1⟩ 6000 7000
    (by decide) (by decide) (by norm_num) (by intro h; simp at h)
    (by norm_num)).1 rfl

/-- C10 (amended): over every `i64` sample, `normalize_parameter` is total
and never returns NaN; whenever the `u64` threshold fits in `i64` and the
`i64` distance computation does not overflow, the result is a finite
rational in `[0, 1]`; and with a zero range the unguarded division yields a
signed infinity that the final `min` caps at exactly `1` for every sample
strictly past the threshold. -/
theorem claim_C10 (p : ParlayParameter) (v : ℤ)
    (hv : IsI64 v) (hthr : p.threshold < 2 ^ 64) :
    (p.normalize_parameter v ≠ F64.nan) ∧
    (p.threshold < 2 ^ 63 →
      (p.is_above_threshold = false → (p.threshold : ℤ) - v < 2 ^ 63) →
      ∃ q : ℚ, p.normalize_parameter v = F64.num q ∧ 0 ≤ q ∧ q ≤ 1) ∧
    (p.range = 0 → p.threshold < 2 ^ 63 →
      ((p.is_above_threshold = true ∧ (p.threshold : ℤ) < v) ∨
        (p.is_above_threshold = false ∧ v < (p.threshold : ℤ) ∧
          (p.threshold : ℤ) - v < 2 ^ 63)) →
      p.normalize_parameter v = F64.num 1) := by
  obtain ⟨hv1, hv2⟩ := hv
  obtain ⟨htI1, htI2⟩ := isI64_i64ofU64 hthr
  refine ⟨?_, ?_, ?_⟩
  · cases hab : p.is_above_threshold with
    | true =>
      by_cases hvt : v ≤ i64ofU64 p.threshold
      · rw [normalize_above_le p hab hvt]; simp
      · push_neg at hvt
        rw [normalize_above_gt p hab hvt]
        exact norm_core_ne_nan _ (wrapI64_ne_zero (by omega) (by omega)) _
    | false =>
      by_cases hvt : i64ofU64 p.threshold ≤ v
      · rw [normalize_below_ge p hab hvt]; simp
      · push_neg at hvt
        rw [normalize_below_lt p hab hvt]
        exact norm_core_ne_nan _ (wrapI64_ne_zero (by omega) (by omega)) _
  · intro ht hwrap
    have hteq : i64ofU64 p.threshold = (p.threshold : ℤ) := i64ofU64_eq_of_lt ht
    have htnn : (0 : ℤ) ≤ (p.threshold : ℤ) := Int.natCast_nonneg _
    cases hab : p.is_above_threshold with
    | true =>
      by_cases hvt : v ≤ (p.threshold : ℤ)
      · exact ⟨0, normalize_above_le p hab (by rw [hteq]; exact hvt), le_rfl, by norm_num⟩
      · push_neg at hvt
        rw [normalize_above_gt p hab (by rw [hteq]; exact hvt), hteq,
          wrapI64_eq_of_IsI64 ⟨by omega, by omega⟩]
        exact norm_core_mem _ (by omega) _
    | false =>
      have hwrap' := hwrap hab
      by_cases hvt : (p.threshold : ℤ) ≤ v
      · exact ⟨0, normalize_below_ge p hab (by rw [hteq]; exact hvt), le_rfl, by norm_num⟩
      · push_neg at hvt
        rw [normalize_below_lt p hab (by rw [hteq]; exact hvt), hteq,
          wrapI64_eq_of_IsI64 ⟨by omega, by omega⟩]
        exact norm_core_mem _ (by omega) _
  · intro hr0 ht hcase
    have hteq : i64ofU64 p.threshold = (p.threshold : ℤ) := i64ofU64_eq_of_lt ht
    have htnn : (0 : ℤ) ≤ (p.threshold : ℤ) := Int.natCast_nonneg _
    rcases hcase with ⟨hab, hvt⟩ | ⟨hab, hvt, hwrap'⟩
    · rw [normalize_above_gt p hab (by rw [hteq]; exact hvt), hteq,
        wrapI64_eq_of_IsI64 ⟨by omega, by omega⟩, hr0]
      exact norm_core_zero_range _ (by omega)
    · rw [normalize_below_lt p hab (by rw [hteq]; exact hvt), hteq,
        wrapI64_eq_of_IsI64 ⟨by omega, by omega⟩, hr0]
      exact norm_core_zero_range _ (by omega)

/-- C10 (counterexample): the below-threshold direction with threshold
`i64::MAX` at sample `-1`: the distance `2^63` overflows `i64` to `-2^63`,
and the result is the negative value `-2^63`, outside `[0, 1]`. -/
theorem claim_C10_counterexample :
    cexParamC10.normalize_parameter (-1) = F64.num (-(2 ^ 63)) ∧
    ¬ ((0 : ℚ) ≤ -(2 ^ 63)) := by
  refine ⟨?_, by norm_num⟩
  norm_num [cexParamC10, ParlayParameter.normalize_parameter, i64ofU64, wrapI64,
    F64.div, F64.fmin, F64.le]

/-- C10 (witness): the amended claim at a concrete input with a zero range,
where the capped result is exactly `1`. -/
theorem claim_C10_witness :
    (⟨.hashrate, 10, 0, true, .linear, F64.num 1⟩ :
        ParlayParameter).normalize_parameter 11 = F64.num 1 :=
  (claim_C10 ⟨.hashrate, 10, 0, true, .linear, F64.num 1⟩ 11
    (by decide) (by norm_num)).2.2 rfl (by norm_num)
    (Or.inl ⟨rfl, by norm_num⟩)

/-! ## Claim C2: `convert_to_attestable_value` -/

/-- C2 (amended): the attestable value is `floor(combined_score ×
max_normalized_value)` truncated at `0` from below (also for NaN) and
saturated at `u64::MAX = 2^64 - 1` — not at `2^nb_digits - 1` — from above
(also for `+∞`); consequently it lies in `[0, max_normalized_value]`
whenever the combined score is a finite value in `[0, 1]`, but not in
general. -/
theorem claim_C2 (q : ℚ) (m : ℕ) :
    (0 ≤ q → convert_to_attestable_value (F64.num q) m
        = min (q * m).floor.toNat (2 ^ 64 - 1)) ∧
    (q < 0 → convert_to_attestable_value (F64.num q) m = 0) ∧
    (convert_to_attestable_value F64.nan m = 0) ∧
    (0 < m → convert_to_attestable_value F64.posInf m = 2 ^ 64 - 1) ∧
    (0 ≤ q → q ≤ 1 → convert_to_attestable_value (F64.num q) m ≤ m) := by
  have key : ∀ q' : ℚ, 0 ≤ q' →
      convert_to_attestable_value (F64.num q') m
        = min (q' * m).floor.toNat (2 ^ 64 - 1) := by
    intro q' hq'
    have : ¬ (q' * (m : ℚ) < 0) := not_lt.mpr (mul_nonneg hq' (by positivity))
    simp [convert_to_attestable_value, F64.mul, F64.toU64, this]
  refine ⟨key q, ?_, by simp [convert_to_attestable_value, F64.mul, F64.toU64], ?_, ?_⟩
  · intro hq
    rcases Nat.eq_zero_or_pos m with hm | hm
    · subst hm
      simp only [convert_to_attestable_value, F64.mul, F64.toU64]
      norm_num
      decide
    · have hmq : (0 : ℚ) < (m : ℚ) := by exact_mod_cast hm
      have : q * (m : ℚ) < 0 := mul_neg_of_neg_of_pos hq hmq
      simp [convert_to_attestable_value, F64.mul, F64.toU64, this]
  · intro hm
    have hmq : (0 : ℚ) < (m : ℚ) := by exact_mod_cast hm
    simp [convert_to_attestable_value, F64.mul, F64.toU64, hmq.ne', hmq]
  · intro hq0 hq1
    rw [key q hq0]
    refine (min_le_left _ _).trans ?_
    have hfloor : (q * (m : ℚ)).floor ≤ (m : ℤ) := by
      have hle : q * (m : ℚ) ≤ (m : ℚ) := by
        calc q * (m : ℚ) ≤ 1 * (m : ℚ) :=
              mul_le_mul_of_nonneg_right hq1 (by positivity)
          _ = (m : ℚ) := one_mul _
      calc (q * (m : ℚ)).floor = ⌊q * (m : ℚ)⌋ := rfl
        _ ≤ ⌊(m : ℚ)⌋ := Int.floor_le_floor hle
        _ = (m : ℤ) := Int.floor_natCast m
    omega

/-- C2 (counterexample): a combined score of `2.0` with
`max_normalized_value = 1000` (event `nb_digits = 10`) produces `2000`,
above both `max_normalized_value` and `2^nb_digits - 1 = 1023`: the claimed
clamps do not exist. -/
theorem claim_C2_counterexample :
    convert_to_attestable_value (F64.num 2) 1000 = 2000 ∧
    (calculate_oracle_parameters 1000).1 = 10 ∧
    ¬ (convert_to_attestable_value (F64.num 2) 1000 ≤ 1000) ∧
    ¬ (convert_to_attestable_value (F64.num 2) 1000 ≤ 2 ^ 10 - 1) := by
  have h : convert_to_attestable_value (F64.num 2) 1000 = 2000 := by
    simp only [convert_to_attestable_value, F64.mul, F64.toU64]
    norm_num
    decide
  refine ⟨h, ?_, by rw [h]; norm_num, by rw [h]; norm_num⟩
  simp [calculate_oracle_parameters, Nat.clog]

/-- C2 (witness): the amended claim at the concrete finite score `1/2`. -/
theorem claim_C2_witness :
    convert_to_attestable_value (F64.num (1 / 2)) 10 ≤ 10 :=
  (claim_C2 (1 / 2) 10).2.2.2.2 (by norm_num) (by norm_num)

/-! ## Claim C3: `combine_scores`, weighted-average branch -/

/-- Folding IEEE `+` over finite values is exact rational summation. -/
theorem F64.foldl_add_num (qs : List ℚ) (a : ℚ) :
    (qs.map F64.num).foldl F64.add (F64.num a) = F64.num (qs.foldl (· + ·) a) := by
  induction qs generalizing a with
  | nil => rfl
  | cons q qs ih => simpa [F64.add] using ih (a + q)

/-- `Iterator::sum` over finite values is the exact rational sum. -/
theorem F64.fsum_map_num (qs : List ℚ) :
    F64.fsum (qs.map F64.num) = F64.num qs.sum := by
  rw [F64.fsum, F64.foldl_add_num, List.sum_eq_foldl]

/-- C3 (amended): for a non-empty score vector, the `weighted_average`
combination multiplies each score — in which the contract weight is already
folded — by its declared weight a second time, and divides by the **number
of scores**, not by the sum of the declared weights:
`(Σ sᵢ·wᵢ) / n`. -/
theorem claim_C3 (es ws : List ℚ) (hne : es ≠ []) :
    combine_scores (es.map F64.num) (ws.map F64.num) .weightedAverage
      = F64.num (((es.zip ws).map fun p => p.1 * p.2).sum / es.length) := by
  have hlen : ((es.length : ℚ)) ≠ 0 := by
    have : 0 < es.length := List.length_pos.mpr hne
    exact_mod_cast this.ne'
  unfold combine_scores
  rw [List.zip_map, List.map_map]
  have hmap : ((fun p : F64 × F64 => F64.mul p.1 p.2) ∘ Prod.map F64.num F64.num)
      = (F64.num ∘ fun p : ℚ × ℚ => p.1 * p.2) := by
    funext p
    rfl
  rw [hmap, ← List.map_map, F64.fsum_map_num, List.length_map,
    F64.div_num_of_ne hlen]

/-- C3 (counterexample): one score `s₁ = 1` with declared weight `w₁ = 2`:
the claim demands `Σ sᵢ / Σ wᵢ = 1/2`, but `combine_scores` returns
`(1 × 2) / 1 = 2`. -/
theorem claim_C3_counterexample :
    combine_scores [F64.num 1] [F64.num 2] .weightedAverage = F64.num 2 ∧
    F64.num (2 : ℚ) ≠ F64.num (1 / 2) := by
  constructor
  · norm_num [combine_scores, F64.fsum, F64.mul, F64.add, F64.div]
  · simp only [ne_eq, F64.num.injEq]
    norm_num

/-- C3 (witness): the amended claim at the concrete input `s = [2]`,
`w = [3]`. -/
theorem claim_C3_witness :
    combine_scores [F64.num 2] [F64.num 3] .weightedAverage = F64.num 6 := by
  have h := claim_C3 [2] [3] (by simp)
  norm_num at h
  exact h

/-! ## Claim C9: `calculate_oracle_parameters` -/

/-- C9 (amended): `nb_digits` is `⌈log₂ m⌉` for `m ≥ 1` and `1` for
`m = 0`; no minimum of `1` is applied, so `nb_digits = 0` at `m = 1`, while
`nb_digits ≥ 1` does hold for every other input; the returned oracle
maximum equals `2^nb_digits − 1` whenever `m ≤ 2^63` (beyond that the
`u64` shift masks its amount modulo 64). -/
theorem claim_C9 (m : ℕ) :
    ((calculate_oracle_parameters m).1 = if m = 0 then 1 else Nat.clog 2 m) ∧
    (m ≠ 1 → 1 ≤ (calculate_oracle_parameters m).1) ∧
    (m ≤ 2 ^ 63 →
      (calculate_oracle_parameters m).2
        = 2 ^ (calculate_oracle_parameters m).1 - 1) := by
  refine ⟨rfl, ?_, ?_⟩
  · intro hm1
    rcases Nat.eq_zero_or_pos m with hm | hm
    · simp [calculate_oracle_parameters, hm]
    · have h2 : 2 ≤ m := by omega
      have := Nat.clog_pos (b := 2) (by norm_num) h2
      simp only [calculate_oracle_parameters]
      rw [if_neg (by omega)]
      omega
  · intro hm63
    have hnb : (if m = 0 then 1 else Nat.clog 2 m) ≤ 63 := by
      split
      · norm_num
      · calc Nat.clog 2 m ≤ Nat.clog 2 (2 ^ 63) := Nat.clog_mono_right 2 hm63
          _ = 63 := Nat.clog_pow 2 63 (by norm_num)
    simp only [calculate_oracle_parameters]
    rw [Nat.mod_eq_of_lt (by omega)]

/-- C9 (counterexample): at `m = 1` the code returns `nb_digits = 0`
(`⌈log₂ 1⌉ = 0`, and no minimum of `1` is applied), so `nb_digits ≥ 1`
fails; the oracle maximum degenerates to `2^0 - 1 = 0`. -/
theorem claim_C9_counterexample :
    calculate_oracle_parameters 1 = (0, 0) ∧
    ¬ (1 ≤ (calculate_oracle_parameters 1).1) := by
  constructor
  · simp [calculate_oracle_parameters, Nat.clog]
  · simp [calculate_oracle_parameters, Nat.clog]

/-- C9 (witness): the amended claim at the concrete input `m = 1000`. -/
theorem claim_C9_witness :
    (calculate_oracle_parameters 1000).1 = Nat.clog 2 1000 ∧
    1 ≤ (calculate_oracle_parameters 1000).1 ∧
    (calculate_oracle_parameters 1000).2
      = 2 ^ (calculate_oracle_parameters 1000).1 - 1 := by
  have h := claim_C9 1000
  exact ⟨by simpa using h.1, h.2.1 (by norm_num), h.2.2 (by norm_num)⟩

/-! ## Claim C1: `save_signatures` -/

/-- The per-event nonce listing has as many rows as the raw filter: the
`ORDER BY` is a permutation. -/
theorem length_nonce_rows_of_event (db : Db) (event_id : String) :
    (nonce_rows_of_event db event_id).length
      = (db.event_nonces.filter fun n => n.event_id == event_id).length :=
  (List.perm_insertionSort _ _).length_eq

/-- C1 (amended): `save_signatures` commits if and only if the event exists
and the number of its stored nonces equals the number of supplied
signatures.  No already-signed check exists: prior signatures neither block
the call nor are preserved by it, so a second call on an already-signed
event commits again (overwriting, see the counterexample). -/
theorem claim_C1 (db : Db) (event_id : String) (sigs : List (String × ℕ)) :
    (save_signatures db event_id sigs).isOk = true ↔
      ((db.events.find? fun e => e.event_id == event_id).isSome ∧
        (db.event_nonces.filter fun n => n.event_id == event_id).length
          = sigs.length) := by
  have hlen0 : ((nonce_rows_of_event db event_id).map
      fun n => (n.id, n.index)).length
        = (db.event_nonces.filter fun n => n.event_id == event_id).length := by
    rw [List.length_map]
    exact length_nonce_rows_of_event db event_id
  unfold save_signatures
  cases hf : db.events.find? fun e => e.event_id == event_id with
  | none => simp [Except.isOk, Except.toBool]
  | some ev =>
      dsimp only
      by_cases hlen : ((nonce_rows_of_event db event_id).map
          fun n => (n.id, n.index)).length = sigs.length
      · rw [if_neg (not_not.mpr hlen)]
        simp only [Except.isOk, Except.toBool, Option.isSome_some, true_and]
        rw [← hlen0]
        exact iff_of_true trivial hlen
      · rw [if_pos hlen]
        simp only [Except.isOk, Except.toBool, Option.isSome_some, true_and]
        rw [← hlen0]
        exact iff_of_false (by simp) hlen

/-- C1 (counterexample): `dbC1` stores one event `"e"` whose only nonce
already holds signature `7`, yet a further `save_signatures` call commits
(`ok`), overwriting outcome and signature — the store changes, and the call
does not fail as the claim requires. -/
theorem claim_C1_counterexample :
    (dbC1.event_nonces.any fun n => n.signature.isSome) = true ∧
    save_signatures dbC1 "e" [("0", 9)] = .ok (dbC1', dataC1) ∧
    dbC1' ≠ dbC1 := by
  refine ⟨rfl, ?_, by decide⟩
  rfl

/-! ## Claim C4: nonce allocation -/

/-- Every index in the flattened spec-shaped trace is at least the starting
counter. -/
theorem spec_blocks_join_ge (c : ℕ) (ns : List ℕ) :
    ∀ b ∈ (spec_blocks c ns).flatten, c ≤ b := by
  induction ns generalizing c with
  | nil => simp [spec_blocks]
  | cons n ns ih =>
      intro b hb
      simp only [spec_blocks, List.flatten_cons, List.mem_append] at hb
      rcases hb with hb | hb
      · obtain ⟨k, _, rfl⟩ := List.mem_map.mp hb
        omega
      · have := ih (c + n) b hb
        omega

/-- The flattened spec-shaped trace is strictly increasing: within a block
(consecutive indices) and across blocks (later allocations start higher). -/
theorem spec_blocks_join_pairwise (c : ℕ) (ns : List ℕ) :
    List.Pairwise (· < ·) (spec_blocks c ns).flatten := by
  induction ns generalizing c with
  | nil => simp [spec_blocks]
  | cons n ns ih =>
      simp only [spec_blocks, List.flatten_cons]
      rw [List.pairwise_append]
      refine ⟨?_, ih (c + n), ?_⟩
      · exact (List.pairwise_lt_range n).map _ (fun a b h => by omega)
      · intro a ha b hb
        obtain ⟨k, hk, rfl⟩ := List.mem_map.mp ha
        have hk' := List.mem_range.mp hk
        have := spec_blocks_join_ge (c + n) ns b hb
        omega

/-- Without `u32` overflow the real trace has exactly the spec shape. -/
theorem alloc_trace_eq_spec_blocks (c : ℕ) (ns : List ℕ)
    (h : c + ns.sum < 2 ^ 32) :
    alloc_trace c ns = spec_blocks c ns := by
  induction ns generalizing c with
  | nil => rfl
  | cons n ns ih =>
      simp only [List.sum_cons] at h
      have hcn : c + n < 2 ^ 32 := by omega
      simp only [alloc_trace, spec_blocks, get_next_nonce_indexes]
      have h1 : List.map (fun k => (c + k) % 2 ^ 32) (List.range n)
          = List.map (fun k => c + k) (List.range n) :=
        List.map_congr_left fun k hk => by
          have := List.mem_range.mp hk
          exact Nat.mod_eq_of_lt (by omega)
      rw [h1, Nat.mod_eq_of_lt hcn, ih (c + n) (by omega)]

/-- C4 (confirmed): the allocator fails closed when the store is unreadable;
otherwise its counter starts at `max(existing index) + 1` (`1` on an empty
store, via `COALESCE(MAX(index), 0)`); and, absent `u32` overflow, a
sequence of `allocate` calls returns consecutive blocks
`[i, i+1, …, i+n-1]` whose concatenation is strictly increasing — every
index of a later allocation exceeds every index of an earlier one. -/
theorem claim_C4 :
    (postgres_storage_new none = .error .storageFailure) ∧
    (postgres_storage_new (some []) = .ok 1) ∧
    (∀ rows : List EventNonceRow, rows ≠ [] →
      (∀ n ∈ rows, 0 ≤ n.index ∧ n.index < 2 ^ 31) →
      ∃ mx : ℕ, postgres_storage_new (some rows) = .ok (mx + 1) ∧
        (mx : ℤ) ∈ rows.map (fun n => n.index) ∧
        (∀ i ∈ rows.map (fun n => n.index), i ≤ (mx : ℤ))) ∧
    (∀ counter ns, counter + ns.sum < 2 ^ 32 →
      alloc_trace counter ns = spec_blocks counter ns) ∧
    (∀ counter ns, counter + ns.sum < 2 ^ 32 →
      List.Pairwise (· < ·) (alloc_trace counter ns).flatten) := by
  refine ⟨rfl, rfl, ?_, alloc_trace_eq_spec_blocks, ?_⟩
  · intro rows hne hvalid
    obtain ⟨x, hx⟩ : ∃ x, x ∈ rows.map (fun n => n.index) := by
      cases rows with
      | nil => exact absurd rfl hne
      | cons r rows => exact ⟨r.index, by simp⟩
    obtain ⟨mxz, hmx⟩ := Option.isSome_iff_exists.mp
      (List.isSome_max?_of_mem hx)
    have hmem : mxz ∈ rows.map (fun n => n.index) :=
      List.max?_mem (fun a b => max_choice a b) hmx
    have hub : ∀ i ∈ rows.map (fun n => n.index), i ≤ mxz :=
      (List.max?_le_iff (fun a b c => max_le_iff) hmx).mp le_rfl
    obtain ⟨r, hr, hrx⟩ := List.mem_map.mp hmem
    obtain ⟨hr0, hr31⟩ := hvalid r hr
    refine ⟨mxz.toNat, ?_, by rwa [Int.toNat_of_nonneg (by omega)],
      by rw [Int.toNat_of_nonneg (by omega)]; exact hub⟩
    simp only [postgres_storage_new, hmx, Option.getD_some, u32ofI32]
    rw [Int.emod_eq_of_lt (by omega) (by omega)]
    congr 1
    rw [Nat.mod_eq_of_lt (by omega)]
  · intro counter ns h
    rw [alloc_trace_eq_spec_blocks counter ns h]
    exact spec_blocks_join_pairwise counter ns

/-- C4 (witness): the allocation part at a concrete trace — counter `5`,
requests `[2, 3]` — yields the blocks `[5, 6]` and `[7, 8, 9]`, strictly
increasing across calls. -/
theorem claim_C4_witness :
    alloc_trace 5 [2, 3] = spec_blocks 5 [2, 3] ∧
    List.Pairwise (· < ·) (alloc_trace 5 [2, 3]).flatten ∧
    (∃ mx : ℕ, postgres_storage_new (some [⟨3, "e", 3, 0, none, none⟩]) = .ok (mx + 1) ∧
      (mx : ℤ) ∈ [(⟨3, "e", 3, 0, none, none⟩ : EventNonceRow)].map (fun n => n.index) ∧
      (∀ i ∈ [(⟨3, "e", 3, 0, none, none⟩ : EventNonceRow)].map (fun n => n.index),
        i ≤ (mx : ℤ))) := by
  refine ⟨claim_C4.2.2.2.1 5 [2, 3] (by norm_num),
    claim_C4.2.2.2.2 5 [2, 3] (by norm_num),
    claim_C4.2.2.1 [⟨3, "e", 3, 0, none, none⟩] (by simp) (by decide)⟩

/-! ## Claim C5: the matured-unsigned query -/

instance : IsTotal EventRow fun a b => a.created_at ≤ b.created_at :=
  ⟨fun _ _ => Nat.le_total _ _⟩

instance : IsTrans EventRow fun a b => a.created_at ≤ b.created_at :=
  ⟨fun _ _ _ => Nat.le_trans⟩

/-- Membership in the SQL part of the query: exactly the stored events
that carry the requested tag and have no signed nonce. -/
theorem mem_matured_unsigned_rows (db : Db) (tag : String) (e : EventRow) :
    e ∈ matured_unsigned_rows db tag ↔
      e ∈ db.events ∧
      (∃ t ∈ db.event_types, t.oracle_event_id = e.event_id ∧ t.event_type = tag) ∧
      (∀ n ∈ db.event_nonces, n.event_id = e.event_id → n.signature = none) := by
  unfold matured_unsigned_rows
  rw [List.mem_insertionSort, List.mem_filter, List.mem_flatMap]
  constructor
  · rintro ⟨⟨ev, hev, hmem⟩, hsig⟩
    obtain ⟨t, ht, rfl⟩ := List.mem_map.mp hmem
    obtain ⟨htmem, htq⟩ := List.mem_filter.mp ht
    simp only [Bool.and_eq_true, beq_iff_eq] at htq
    refine ⟨hev, ⟨t, htmem, htq.1, htq.2⟩, ?_⟩
    intro n hn hne
    simp only [Bool.not_eq_true', List.any_eq_false, Bool.and_eq_true,
      beq_iff_eq, not_and, Bool.not_eq_true] at hsig
    have h' := hsig n hn hne
    exact Option.not_isSome_iff_eq_none.mp (by simp [h'])
  · rintro ⟨hev, ⟨t, htmem, ht1, ht2⟩, hsig⟩
    refine ⟨⟨e, hev, ?_⟩, ?_⟩
    · exact List.mem_map.mpr ⟨t, List.mem_filter.mpr
        ⟨htmem, by simp [ht1, ht2]⟩, rfl⟩
    · simp only [Bool.not_eq_true', List.any_eq_false, Bool.and_eq_true,
        beq_iff_eq]
      rintro n hn ⟨h1, h2⟩
      rw [hsig n hn h1] at h2
      simp at h2

/-- C5 (confirmed): the query returns exactly the stored events tagged with
the requested event type that are matured (`event_maturity_epoch ≤ now`,
filtered on the Rust side after the SQL) and have zero signed nonces; the
returned pairs are the `created_at`-ascending SQL row order restricted by
the maturity filter, which preserves that order. -/
theorem claim_C5 (db : Db) (event_type : String) (now : ℕ) :
    (∀ i oe, (i, oe) ∈ get_matured_unsigned_event_ids_by_type db event_type now ↔
      ∃ e ∈ db.events, e.event_id = i ∧ e.oracle_event = oe ∧
        (∃ t ∈ db.event_types, t.oracle_event_id = i ∧ t.event_type = event_type) ∧
        oe.event_maturity_epoch ≤ now ∧
        (∀ n ∈ db.event_nonces, n.event_id = i → n.signature = none)) ∧
    List.Pairwise (fun a b => a.created_at ≤ b.created_at)
      (matured_unsigned_rows db event_type) ∧
    get_matured_unsigned_event_ids_by_type db event_type now
      = ((matured_unsigned_rows db event_type).filter
          fun e => e.oracle_event.event_maturity_epoch ≤ now).map
        fun e => (e.event_id, e.oracle_event) := by
  refine ⟨?_, ?_, ?_⟩
  · intro i oe
    simp only [get_matured_unsigned_event_ids_by_type, List.mem_filter,
      List.mem_map]
    constructor
    · rintro ⟨⟨e, he, heq⟩, hmat⟩
      obtain ⟨h1, h2, h3⟩ := (mem_matured_unsigned_rows db event_type e).mp he
      obtain ⟨rfl, rfl⟩ := Prod.mk.injEq .. |>.mp heq
      exact ⟨e, h1, rfl, rfl, h2, by simpa using hmat, h3⟩
    · rintro ⟨e, he, rfl, rfl, htag, hmat, hsig⟩
      exact ⟨⟨e, (mem_matured_unsigned_rows db event_type e).mpr
        ⟨he, htag, hsig⟩, rfl⟩, by simpa using hmat⟩
  · exact List.sorted_insertionSort _ _
  · unfold get_matured_unsigned_event_ids_by_type
    rw [List.filter_map]
    rfl

/-! ## Claim C8: the watcher loops -/

/-- C8: the parlay loop really does continue past a failed event, but the
single-event loop returns out of the whole function after the first
processed event — on a sampling error the remaining matured single events
are not attempted, and even a success stops the loop.  Evaluated at the
failing input: two matured single events whose first sample fails (the
second is never signed), two whose samples would both succeed (only the
first is signed), and two parlay events whose first attestation fails (the
second is still attested). -/
theorem claim_C8 :
    sign_single_events singleEventsC8 outcomesC8 signOkC8 saveOkC8 saveOkC8 = [] ∧
    sign_single_events singleEventsC8ok outcomesC8 signOkC8 saveOkC8 saveOkC8
      = ["e3"] ∧
    sign_parlay_events parlayEventsC8 attestC8 = ["p2"] :=
  ⟨rfl, rfl, rfl⟩

end ErnestOracle
